import Mathlib

/-!
Formal model of the WMW bill splitter: the transaction/obligation model, the
ledger accumulation loop and the greedy settlement loop of `WMWBillSplitter.py`,
together with proofs about the properties stated in its specification.

Monetary amounts are modelled as exact rationals (the specification mandates
exact decimal arithmetic); a `Money` value carries its amount and a currency
code.  Ledger balances are kept in the base currency USD, so the ledger and
settlement arithmetic acts on the numeric amounts.  The unbounded `while` loop
of the settlement engine is modelled with an explicit fuel bound; running out
of fuel is a distinguished outcome, as is a failure of the defensive `assert`.
-/

attribute [local semireducible] Rat.add Rat.mul Rat.inv Rat.sub

namespace WMW

/-- Members of the fixed participant registry, in the enumeration order of
`WildMan = Enum('WildMan', ['Nishant','Steve','Joe','Elton','John','Dim'])`. -/
inductive WildMan where
  | Nishant
  | Steve
  | Joe
  | Elton
  | John
  | Dim
deriving DecidableEq, Fintype

/-- Registry iteration order, `WildMan.__members__.keys()`; it is also the
iteration order of the `moneyOwed` dict built by `dict.fromkeys`. -/
def registry : List WildMan :=
  [.Nishant, .Steve, .Joe, .Elton, .John, .Dim]

/-- A currency-tagged exact amount, modelling a `Money` value. -/
structure Money where
  amount : ℚ
  currency : String
deriving DecidableEq

/-- Round a scaled value half-to-even, as Python `Decimal` rounding does. -/
def roundHalfEven (q : ℚ) : ℤ :=
  let f : ℤ := ⌊q⌋
  let r : ℚ := q - (f : ℚ)
  if r < 1 / 2 then f
  else if 1 / 2 < r then f + 1
  else if f % 2 = 0 then f else f + 1

/-- Round to 2 decimal places, `round(x, ndigits=2)`. -/
def round2 (q : ℚ) : ℚ :=
  (roundHalfEven (100 * q) : ℚ) / 100

/-- A `Transaction` record: amount, creditor (payer), beneficiary list, the
aligned share list and a description. -/
structure Transaction where
  amt : Money
  creditor : WildMan
  recipients : List WildMan
  split : List ℚ
  desc : String
deriving DecidableEq

/-- The `Transaction.__init__` constructor: the amount is rounded to 2 decimal
places, `recipients` defaults to the whole registry, `split` defaults to the
even split `1/len(recipients)` per recipient and `desc` to the empty string. -/
def mkTransaction (amt : Money) (creditor : WildMan)
    (recipients : Option (List WildMan)) (split : Option (List ℚ))
    (desc : String) : Transaction :=
  let recs := recipients.getD registry
  { amt := ⟨round2 amt.amount, amt.currency⟩
    creditor := creditor
    recipients := recs
    split := split.getD (recs.map fun _ => 1 / (recs.length : ℚ))
    desc := desc }

/-- The `Transaction.obligation` method: the full (positive) amount for the
creditor, minus the aligned share of the amount for a recipient, and a zero
denominated in USD for an uninvolved member.  The `none` result models the
`IndexError` raised when the recipient's index has no aligned `split` entry. -/
def obligation (t : Transaction) (w : WildMan) : Option Money :=
  if t.creditor = w then some t.amt
  else if w ∈ t.recipients then
    (t.split[t.recipients.indexOf w]?).map fun s =>
      (⟨-(s * t.amt.amount), t.amt.currency⟩ : Money)
  else some ⟨0, "USD"⟩

/-- A balance map `moneyOwed`: one (USD) balance per registry member. -/
abbrev Bal : Type := WildMan → ℚ

/-- Pointwise dictionary write, `m[w] = v`. -/
def updBal (m : Bal) (w : WildMan) (v : ℚ) : Bal :=
  fun x => if x = w then v else m x

/-- The all-zero initial ledger, `dict.fromkeys(..., Money('0','USD'))`. -/
def zeroBal : Bal := fun _ => 0

/-- Sum of all balances, the conservation quantity of the ledger. -/
def sumBal (m : Bal) : ℚ := ∑ w : WildMan, m w

/-- One transaction's effect on the ledger (lines 113-118 of `main`): credit
the creditor with the full amount, then debit each `(recipient, share)` pair
of `zip(recipients, split)` by `share * amount`. -/
def applyTx (m : Bal) (t : Transaction) : Bal :=
  (t.recipients.zip t.split).foldl
    (fun acc rp => updBal acc rp.1 (acc rp.1 - rp.2 * t.amt.amount))
    (updBal m t.creditor (m t.creditor + t.amt.amount))

/-- The ledger accumulation loop over the transaction list. -/
def accumulate (ts : List Transaction) : Bal := ts.foldl applyTx zeroBal

/-- Total share debited to `w` by one transaction: the sum of the aligned
shares of the zip pairs naming `w`. -/
def sharesAt (t : Transaction) (w : WildMan) : ℚ :=
  (((t.recipients.zip t.split).filter fun rp => decide (rp.1 = w)).map Prod.snd).sum

/-- Guard of the settlement loop: every balance rounds to zero at 2 decimals. -/
def allZero (m : Bal) : Prop := ∀ w : WildMan, round2 (m w) = 0

instance (m : Bal) : Decidable (allZero m) :=
  inferInstanceAs (Decidable (∀ w : WildMan, round2 (m w) = 0))

/-- Python `min(moneyOwed.items(), key=...)`: the first member, in registry
order, holding the minimal balance (the `biggestDebtor`). -/
def selectMin (m : Bal) : WildMan :=
  registry.foldl (fun best w => if m w < m best then w else best) .Nishant

/-- Python `max(moneyOwed.items(), key=...)`: the first member, in registry
order, holding the maximal balance (the `biggestCreditor`). -/
def selectMax (m : Bal) : WildMan :=
  registry.foldl (fun best w => if m best < m w then w else best) .Nishant

/-- Settlement amount, `min(biggestCreditor[1], abs(biggestDebtor[1]))`. -/
def stepAmt (m : Bal) : ℚ := min (m (selectMax m)) |m (selectMin m)|

/-- Balance adjustment of one settlement iteration (lines 130-131): the amount
is added to the debtor's balance and subtracted from the creditor's. -/
def stepBal (m : Bal) : Bal :=
  updBal (updBal m (selectMin m) (m (selectMin m) + stepAmt m))
    (selectMax m) (m (selectMax m) - stepAmt m)

/-- The settlement payment recorded by one iteration (line 133):
`Transaction(amt=amt, creditor=biggestCreditor[0], recipients=[biggestDebtor[0]])`,
so its `split` defaults to `[1]` and its description to the empty string. -/
def stepPay (m : Bal) : Transaction :=
  mkTransaction ⟨stepAmt m, "USD"⟩ (selectMax m) (some [selectMin m]) none ""

/-- One iteration of the settlement loop; `none` models a failure of the
defensive `assert biggestCreditor[0] != biggestDebtor[0]` (line 127). -/
def step (m : Bal) : Option (Transaction × Bal) :=
  if selectMin m = selectMax m then none
  else some (stepPay m, stepBal m)

/-- Outcome of running the settlement loop under a fuel bound: normal
termination with the payment list (in emission order) and the final balances,
a failure of the defensive assert, or fuel exhaustion (the loop still runs). -/
inductive SettleResult where
  | ok (payments : List Transaction) (balances : Bal)
  | assertFail
  | out
deriving DecidableEq

/-- The settlement loop (lines 121-133): while some balance does not round to
zero, run one iteration and record its payment.  Payments are returned in
emission order, the payment of the earliest iteration first.  The fuel only
bounds how far the model unrolls the unbounded `while` loop. -/
def settleLoop : ℕ → Bal → SettleResult
  | 0, m => if allZero m then .ok [] m else .out
  | fuel + 1, m =>
    if allZero m then .ok [] m
    else
      match step m with
      | none => .assertFail
      | some (pay, m2) =>
        match settleLoop fuel m2 with
        | .ok ps m3 => .ok (pay :: ps) m3
        | r => r

/-- Number of members holding an exactly nonzero balance: the termination
measure of the settlement loop. -/
def nzCount (m : Bal) : ℕ := (Finset.univ.filter fun w => m w ≠ 0).card

/-- Pre-settlement balances of the settlement end-to-end scenario
(A = Nishant = +30, B = Steve = -10, C = Joe = -20, all others 0). -/
def endToEndBal : Bal := fun w =>
  match w with
  | .Nishant => 30
  | .Steve => -10
  | .Joe => -20
  | _ => 0

/-- The even-split default transaction: amount 100 USD, payer Nishant, no
explicit beneficiaries or shares. -/
def evenSplitTx : Transaction := mkTransaction ⟨100, "USD"⟩ .Nishant none none ""

/-- A transaction list on which the settlement loop hits the defensive assert:
every member pays 2 for himself alone with share 1/2, leaving all six
balances at +1. -/
def assertTxs : List Transaction :=
  registry.map fun w => mkTransaction ⟨2, "USD"⟩ w (some [w]) (some [1 / 2]) ""

/-- A single transaction violating conservation: its only share is 2, so the
share list sums to 2 rather than 1. -/
def badShareTx : Transaction :=
  mkTransaction ⟨10, "USD"⟩ .Nishant (some [.Nishant]) (some [2]) ""

/-- Concrete balances used to instantiate the settlement bound theorem. -/
def exBalBound : Bal := fun w =>
  match w with
  | .Nishant => 5
  | .Steve => -5
  | _ => 0

/-- Concrete balances used to instantiate the no-assert theorem. -/
def exBalAssert : Bal := fun w =>
  match w with
  | .Nishant => 1
  | .Joe => -1
  | _ => 0

/-- Concrete balances used to instantiate the sum-preservation theorem. -/
def exBalSum : Bal := fun w =>
  match w with
  | .Nishant => 7
  | .Steve => -7
  | _ => 0

/-- Concrete well-formed transaction list (shares sum to 1) used to
instantiate the settlement correctness theorem. -/
def exTxsSettle : List Transaction :=
  [mkTransaction ⟨30, "USD"⟩ .Nishant (some [.Steve, .Joe]) (some [1 / 3, 2 / 3]) ""]

/-- Concrete well-formed transaction list used to instantiate the
conservation theorem. -/
def exTxsConserve : List Transaction :=
  [⟨⟨12, "USD"⟩, .Nishant, [.Steve, .Joe], [1 / 2, 1 / 2], ""⟩]

/-- The uneven-split scenario transaction: 90 USD paid by Nishant for
beneficiaries Nishant, Steve, Joe with shares 1/2, 1/4, 1/4. -/
def unevenTx : Transaction :=
  ⟨⟨90, "USD"⟩, .Nishant, [.Nishant, .Steve, .Joe], [1 / 2, 1 / 4, 1 / 4], ""⟩

/-- A transaction whose payer is also a beneficiary, used to instantiate the
obligation branch theorem. -/
def benefTx : Transaction :=
  ⟨⟨100, "USD"⟩, .Nishant, [.Nishant, .Steve], [1 / 2, 1 / 2], ""⟩

/-- A transaction denominated in EUR, used to instantiate the obligation
currency theorem. -/
def eurTx : Transaction := ⟨⟨25, "EUR"⟩, .Nishant, [.Steve], [1], ""⟩

/-! ### Registry and selection lemmas -/

lemma mem_registry (w : WildMan) : w ∈ registry := by cases w <;> decide

lemma registry_nodup : registry.Nodup := by decide

/-! ### Rounding lemmas -/

lemma roundHalfEven_eq_zero_iff (x : ℚ) :
    roundHalfEven x = 0 ↔ -(1 / 2) ≤ x ∧ x ≤ 1 / 2 := by
  have h1 : (⌊x⌋ : ℚ) ≤ x := Int.floor_le x
  have h2 : x < ⌊x⌋ + 1 := Int.lt_floor_add_one x
  simp only [roundHalfEven]
  split_ifs with ha hb hc
  · constructor
    · intro h0
      rw [h0] at h1 ha
      push_cast at h1 ha
      constructor <;> linarith
    · rintro ⟨hl, hr⟩
      have hub : ⌊x⌋ < 1 := by
        by_contra hcon
        push_neg at hcon
        have : (1 : ℚ) ≤ (⌊x⌋ : ℚ) := by exact_mod_cast hcon
        linarith
      have hlb : -1 < ⌊x⌋ := by
        by_contra hcon
        push_neg at hcon
        have : (⌊x⌋ : ℚ) ≤ -1 := by exact_mod_cast hcon
        linarith
      omega
  · constructor
    · intro h0
      have hfl : ⌊x⌋ = -1 := by omega
      rw [hfl] at h1 h2 hb
      push_cast at h1 h2 hb
      constructor <;> linarith
    · rintro ⟨hl, hr⟩
      have hub : ⌊x⌋ < 0 := by
        by_contra hcon
        push_neg at hcon
        have : (0 : ℚ) ≤ (⌊x⌋ : ℚ) := by exact_mod_cast hcon
        linarith
      have hlb : -2 < ⌊x⌋ := by
        by_contra hcon
        push_neg at hcon
        have : (⌊x⌋ : ℚ) ≤ -2 := by exact_mod_cast hcon
        linarith
      omega
  · have hx : x = ⌊x⌋ + 1 / 2 := by push_neg at ha hb; linarith
    constructor
    · intro h0
      rw [h0] at hx
      push_cast at hx
      constructor <;> linarith
    · rintro ⟨hl, hr⟩
      have hub : ⌊x⌋ < 1 := by
        by_contra hcon
        push_neg at hcon
        have : (1 : ℚ) ≤ (⌊x⌋ : ℚ) := by exact_mod_cast hcon
        linarith
      have hlb : -1 ≤ ⌊x⌋ := by
        by_contra hcon
        push_neg at hcon
        have : (⌊x⌋ : ℚ) ≤ -2 := by
          have : ⌊x⌋ ≤ -2 := by omega
          exact_mod_cast this
        rw [hx] at hl
        linarith
      omega
  · have hx : x = ⌊x⌋ + 1 / 2 := by push_neg at ha hb; linarith
    constructor
    · intro h0
      have hfl : ⌊x⌋ = -1 := by omega
      rw [hfl] at hx
      push_cast at hx
      constructor <;> linarith
    · rintro ⟨hl, hr⟩
      have hub : ⌊x⌋ ≤ 0 := by
        have : (⌊x⌋ : ℚ) ≤ 0 := by rw [hx] at hr; linarith
        exact_mod_cast this
      have hlb : -2 < ⌊x⌋ := by
        have : (-1 : ℚ) ≤ (⌊x⌋ : ℚ) := by rw [hx] at hl; linarith
        have h4 : (-1 : ℤ) ≤ ⌊x⌋ := by exact_mod_cast this
        omega
      omega

lemma round2_eq_zero_iff (q : ℚ) :
    round2 q = 0 ↔ -(1 / 200) ≤ q ∧ q ≤ 1 / 200 := by
  have hstep : round2 q = 0 ↔ roundHalfEven (100 * q) = 0 := by
    unfold round2
    rw [div_eq_zero_iff]
    norm_num
  rw [hstep, roundHalfEven_eq_zero_iff]
  constructor
  · rintro ⟨hl, hr⟩; constructor <;> linarith
  · rintro ⟨hl, hr⟩; constructor <;> linarith

lemma round2_zero : round2 0 = 0 := by rfl

/-! ### Selection lemmas: `selectMin`/`selectMax` bound every balance -/

lemma balFoldMin_le (m : Bal) :
    ∀ (l : List WildMan) (b : WildMan),
      m (l.foldl (fun best w => if m w < m best then w else best) b) ≤ m b := by
  intro l
  induction l with
  | nil => intro b; exact le_refl _
  | cons x xs ih =>
    intro b
    simp only [List.foldl_cons]
    by_cases h : m x < m b
    · rw [if_pos h]
      exact le_trans (ih x) (le_of_lt h)
    · rw [if_neg h]
      exact ih b

lemma balFoldMin_le_mem (m : Bal) :
    ∀ (l : List WildMan) (b w : WildMan), w ∈ l →
      m (l.foldl (fun best v => if m v < m best then v else best) b) ≤ m w := by
  intro l
  induction l with
  | nil => intro b w hw; cases hw
  | cons x xs ih =>
    intro b w hw
    simp only [List.foldl_cons]
    rcases List.mem_cons.mp hw with rfl | hw2
    · by_cases h : m w < m b
      · rw [if_pos h]
        exact balFoldMin_le m xs w
      · rw [if_neg h]
        exact le_trans (balFoldMin_le m xs b) (le_of_not_lt h)
    · by_cases h : m x < m b
      · rw [if_pos h]
        exact ih x w hw2
      · rw [if_neg h]
        exact ih b w hw2

lemma selectMin_le (m : Bal) (w : WildMan) : m (selectMin m) ≤ m w :=
  balFoldMin_le_mem m registry .Nishant w (mem_registry w)

lemma balFoldMax_ge (m : Bal) :
    ∀ (l : List WildMan) (b : WildMan),
      m b ≤ m (l.foldl (fun best w => if m best < m w then w else best) b) := by
  intro l
  induction l with
  | nil => intro b; exact le_refl _
  | cons x xs ih =>
    intro b
    simp only [List.foldl_cons]
    by_cases h : m b < m x
    · rw [if_pos h]
      exact le_trans (le_of_lt h) (ih x)
    · rw [if_neg h]
      exact ih b

lemma balFoldMax_ge_mem (m : Bal) :
    ∀ (l : List WildMan) (b w : WildMan), w ∈ l →
      m w ≤ m (l.foldl (fun best v => if m best < m v then v else best) b) := by
  intro l
  induction l with
  | nil => intro b w hw; cases hw
  | cons x xs ih =>
    intro b w hw
    simp only [List.foldl_cons]
    rcases List.mem_cons.mp hw with rfl | hw2
    · by_cases h : m b < m w
      · rw [if_pos h]
        exact balFoldMax_ge m xs w
      · rw [if_neg h]
        exact le_trans (le_of_not_lt h) (balFoldMax_ge m xs b)
    · by_cases h : m b < m x
      · rw [if_pos h]
        exact ih x w hw2
      · rw [if_neg h]
        exact ih b w hw2

lemma selectMax_ge (m : Bal) (w : WildMan) : m w ≤ m (selectMax m) :=
  balFoldMax_ge_mem m registry .Nishant w (mem_registry w)

/-! ### Balance-map update and sum lemmas -/

lemma updBal_same (m : Bal) (w : WildMan) (v : ℚ) : updBal m w v w = v := by
  simp [updBal]

lemma updBal_other (m : Bal) (w : WildMan) (v : ℚ) (x : WildMan) (h : x ≠ w) :
    updBal m w v x = m x := by
  simp [updBal, h]

lemma sumBal_updBal (m : Bal) (w : WildMan) (v : ℚ) :
    sumBal (updBal m w v) = sumBal m + (v - m w) := by
  unfold sumBal updBal
  have key : ∀ x : WildMan,
      (if x = w then v else m x) = m x + (if x = w then v - m w else 0) := by
    intro x
    by_cases h : x = w
    · subst h; simp
    · simp [h]
  calc (∑ x : WildMan, if x = w then v else m x)
      = ∑ x : WildMan, (m x + if x = w then v - m w else 0) :=
        Finset.sum_congr rfl fun x _ => key x
    _ = (∑ x : WildMan, m x) + ∑ x : WildMan, (if x = w then v - m w else 0) :=
        Finset.sum_add_distrib
    _ = (∑ x : WildMan, m x) + (v - m w) := by
        rw [Fintype.sum_ite_eq' w fun _ => v - m w]

lemma sumBal_zeroBal : sumBal zeroBal = 0 := by
  simp [sumBal, zeroBal]

/-! ### Settlement step lemmas -/

lemma stepBal_debtor (m : Bal) (h : selectMin m ≠ selectMax m) :
    stepBal m (selectMin m) = m (selectMin m) + stepAmt m := by
  unfold stepBal
  rw [updBal_other _ _ _ _ h, updBal_same]

lemma stepBal_creditor (m : Bal) :
    stepBal m (selectMax m) = m (selectMax m) - stepAmt m := by
  unfold stepBal
  rw [updBal_same]

lemma stepBal_uninvolved (m : Bal) (x : WildMan)
    (h1 : x ≠ selectMin m) (h2 : x ≠ selectMax m) : stepBal m x = m x := by
  unfold stepBal
  rw [updBal_other _ _ _ _ h2, updBal_other _ _ _ _ h1]

lemma step_eq_some (m : Bal) (h : selectMin m ≠ selectMax m) :
    step m = some (stepPay m, stepBal m) := by
  unfold step
  rw [if_neg h]

lemma step_some_inv (m : Bal) (pay : Transaction) (m2 : Bal)
    (h : step m = some (pay, m2)) :
    selectMin m ≠ selectMax m ∧ pay = stepPay m ∧ m2 = stepBal m := by
  unfold step at h
  by_cases hd : selectMin m = selectMax m
  · rw [if_pos hd] at h
    cases h
  · rw [if_neg hd] at h
    simp only [Option.some.injEq, Prod.mk.injEq] at h
    exact ⟨hd, h.1.symm, h.2.symm⟩

lemma sumBal_stepBal (m : Bal) (h : selectMin m ≠ selectMax m) :
    sumBal (stepBal m) = sumBal m := by
  unfold stepBal
  rw [sumBal_updBal, sumBal_updBal, updBal_other _ _ _ _ (Ne.symm h)]
  ring

lemma step_sum (m : Bal) (pay : Transaction) (m2 : Bal)
    (h : step m = some (pay, m2)) : sumBal m2 = sumBal m := by
  obtain ⟨hd, -, rfl⟩ := step_some_inv m pay m2 h
  exact sumBal_stepBal m hd

/-! ### Progress of the settlement loop under a tolerably balanced ledger -/

lemma exists_debtor_creditor (m : Bal)
    (hs : round2 (sumBal m) = 0) (hz : ¬ allZero m) :
    m (selectMin m) < 0 ∧ 0 < m (selectMax m) := by
  obtain ⟨w, hw⟩ := not_forall.mp hz
  obtain ⟨hsl, hsr⟩ := (round2_eq_zero_iff (sumBal m)).mp hs
  have hwb : 1 / 200 < m w ∨ m w < -(1 / 200) := by
    by_contra hcon
    push_neg at hcon
    exact hw ((round2_eq_zero_iff (m w)).mpr ⟨hcon.2, hcon.1⟩)
  rcases hwb with hpos | hneg
  · refine ⟨?_, lt_of_lt_of_le (by linarith) (selectMax_ge m w)⟩
    by_contra hmin
    push_neg at hmin
    have hall : ∀ u : WildMan, 0 ≤ m u := fun u => le_trans hmin (selectMin_le m u)
    have : m w ≤ sumBal m :=
      Finset.single_le_sum (fun i _ => hall i) (Finset.mem_univ w)
    linarith
  · refine ⟨lt_of_le_of_lt (selectMin_le m w) (by linarith), ?_⟩
    by_contra hmax
    push_neg at hmax
    have hall : ∀ u : WildMan, m u ≤ 0 := fun u => le_trans (selectMax_ge m u) hmax
    have hneg2 : -m w ≤ ∑ u : WildMan, -m u :=
      Finset.single_le_sum (f := fun u => -m u)
        (fun i _ => neg_nonneg.mpr (hall i)) (Finset.mem_univ w)
    have hsum_neg : (∑ u : WildMan, -m u) = -sumBal m := by
      unfold sumBal
      exact Finset.sum_neg_distrib
    rw [hsum_neg] at hneg2
    linarith

lemma selectMin_ne_selectMax (m : Bal)
    (hd : m (selectMin m) < 0) (hc : 0 < m (selectMax m)) :
    selectMin m ≠ selectMax m := by
  intro h
  rw [h] at hd
  linarith

lemma stepBal_zeroes_debtor (m : Bal) (hd : m (selectMin m) < 0)
    (hc : 0 < m (selectMax m)) (h : |m (selectMin m)| ≤ m (selectMax m)) :
    stepBal m (selectMin m) = 0 := by
  have hne := selectMin_ne_selectMax m hd hc
  rw [stepBal_debtor m hne]
  unfold stepAmt
  rw [min_eq_right h, abs_of_neg hd]
  ring

lemma stepBal_zeroes_creditor (m : Bal)
    (h : m (selectMax m) ≤ |m (selectMin m)|) :
    stepBal m (selectMax m) = 0 := by
  rw [stepBal_creditor m]
  unfold stepAmt
  rw [min_eq_left h]
  ring

lemma stepBal_zeroes (m : Bal) (hd : m (selectMin m) < 0)
    (hc : 0 < m (selectMax m)) :
    stepBal m (selectMin m) = 0 ∨ stepBal m (selectMax m) = 0 := by
  rcases le_total |m (selectMin m)| (m (selectMax m)) with h | h
  · exact Or.inl (stepBal_zeroes_debtor m hd hc h)
  · exact Or.inr (stepBal_zeroes_creditor m h)

/-! ### The termination measure -/

lemma nzCount_le_six (m : Bal) : nzCount m ≤ 6 := by
  unfold nzCount
  exact le_trans (Finset.card_filter_le _ _) (by decide)

lemma nzCount_step_lt (m : Bal) (hd : m (selectMin m) < 0)
    (hc : 0 < m (selectMax m)) :
    nzCount (stepBal m) < nzCount m := by
  have hne := selectMin_ne_selectMax m hd hc
  unfold nzCount
  apply Finset.card_lt_card
  rw [Finset.ssubset_iff_of_subset]
  · rcases stepBal_zeroes m hd hc with h0 | h0
    · refine ⟨selectMin m, Finset.mem_filter.mpr ⟨Finset.mem_univ _, ne_of_lt hd⟩, ?_⟩
      intro hmem
      exact (Finset.mem_filter.mp hmem).2 h0
    · refine ⟨selectMax m, Finset.mem_filter.mpr ⟨Finset.mem_univ _, ne_of_gt hc⟩, ?_⟩
      intro hmem
      exact (Finset.mem_filter.mp hmem).2 h0
  · intro x hx
    have hx2 := (Finset.mem_filter.mp hx).2
    refine Finset.mem_filter.mpr ⟨Finset.mem_univ _, ?_⟩
    by_cases h1 : x = selectMin m
    · subst h1; exact ne_of_lt hd
    · by_cases h2 : x = selectMax m
      · subst h2; exact ne_of_gt hc
      · rw [← stepBal_uninvolved m x h1 h2]
        exact hx2

lemma two_le_nzCount (m : Bal) (hd : m (selectMin m) < 0)
    (hc : 0 < m (selectMax m)) : 2 ≤ nzCount m := by
  have hne := selectMin_ne_selectMax m hd hc
  unfold nzCount
  have hmem1 : selectMin m ∈ Finset.univ.filter (fun x => m x ≠ 0) :=
    Finset.mem_filter.mpr ⟨Finset.mem_univ _, ne_of_lt hd⟩
  have hmem2 : selectMax m ∈ Finset.univ.filter (fun x => m x ≠ 0) :=
    Finset.mem_filter.mpr ⟨Finset.mem_univ _, ne_of_gt hc⟩
  have := Finset.one_lt_card.mpr ⟨selectMin m, hmem1, selectMax m, hmem2, hne⟩
  omega

lemma allZero_of_nzCount_le_one (m : Bal)
    (hs : round2 (sumBal m) = 0) (h1 : nzCount m ≤ 1) : allZero m := by
  intro w
  by_cases hw : m w = 0
  · rw [hw]
    exact round2_zero
  · have hwmem : w ∈ Finset.univ.filter (fun x => m x ≠ 0) :=
      Finset.mem_filter.mpr ⟨Finset.mem_univ w, hw⟩
    have hsingle : Finset.univ.filter (fun x => m x ≠ 0) = {w} := by
      apply Finset.eq_singleton_iff_unique_mem.mpr
      exact ⟨hwmem, fun x hx => Finset.card_le_one.mp h1 x hx w hwmem⟩
    have hsum : sumBal m = m w := by
      unfold sumBal
      rw [← Finset.sum_filter_ne_zero, hsingle, Finset.sum_singleton]
    rw [← hsum]
    exact hs

/-! ### Termination of the settlement loop -/

lemma settleLoop_succ_of_step (k : ℕ) (m : Bal) (pay : Transaction) (m2 : Bal)
    (hz : ¬ allZero m) (hstep : step m = some (pay, m2)) :
    settleLoop (k + 1) m =
      match settleLoop k m2 with
      | .ok ps m3 => .ok (pay :: ps) m3
      | r => r := by
  simp only [settleLoop]
  rw [if_neg hz, hstep]

lemma settleLoop_total :
    ∀ (k : ℕ) (m : Bal), round2 (sumBal m) = 0 → nzCount m ≤ k + 1 →
      ∃ ps m2, settleLoop k m = .ok ps m2 ∧ allZero m2 ∧
        ps.length ≤ nzCount m - 1 ∧ sumBal m2 = sumBal m := by
  intro k
  induction k with
  | zero =>
    intro m hs hn
    have hz := allZero_of_nzCount_le_one m hs (by omega)
    exact ⟨[], m, by simp [settleLoop, hz], hz, by simp, rfl⟩
  | succ k ih =>
    intro m hs hn
    by_cases hz : allZero m
    · exact ⟨[], m, by simp [settleLoop, hz], hz, by simp, rfl⟩
    · obtain ⟨hd, hc⟩ := exists_debtor_creditor m hs hz
      have hne := selectMin_ne_selectMax m hd hc
      have hstep := step_eq_some m hne
      have hsum2 : sumBal (stepBal m) = sumBal m := sumBal_stepBal m hne
      have hlt := nzCount_step_lt m hd hc
      have h2 := two_le_nzCount m hd hc
      obtain ⟨ps, m2, hrun, hz2, hlen, hsump⟩ :=
        ih (stepBal m) (by rw [hsum2]; exact hs) (by omega)
      refine ⟨stepPay m :: ps, m2, ?_, hz2, ?_, by rw [hsump, hsum2]⟩
      · rw [settleLoop_succ_of_step k m (stepPay m) (stepBal m) hz hstep, hrun]
      · simp only [List.length_cons]
        omega

lemma settleLoop_sum_aux :
    ∀ (fuel : ℕ) (m : Bal) (ps : List Transaction) (m2 : Bal),
      settleLoop fuel m = .ok ps m2 → sumBal m2 = sumBal m := by
  intro fuel
  induction fuel with
  | zero =>
    intro m ps m2 h
    simp only [settleLoop] at h
    split at h
    · cases h
      rfl
    · cases h
  | succ k ih =>
    intro m ps m2 h
    by_cases hz : allZero m
    · simp only [settleLoop, if_pos hz] at h
      cases h
      rfl
    · cases hstep : step m with
      | none =>
        simp only [settleLoop, if_neg hz, hstep] at h
        cases h
      | some pr =>
        obtain ⟨pay, mb⟩ := pr
        rw [settleLoop_succ_of_step k m pay mb hz hstep] at h
        cases hrun : settleLoop k mb with
        | ok ps3 m3 =>
          rw [hrun] at h
          cases h
          exact (ih mb ps3 m2 hrun).trans (step_sum m pay mb hstep)
        | assertFail =>
          rw [hrun] at h
          cases h
        | out =>
          rw [hrun] at h
          cases h

lemma settleLoop_no_assert_aux :
    ∀ (fuel : ℕ) (m : Bal), round2 (sumBal m) = 0 →
      settleLoop fuel m ≠ .assertFail := by
  intro fuel
  induction fuel with
  | zero =>
    intro m hs
    simp only [settleLoop]
    split <;> intro h <;> cases h
  | succ k ih =>
    intro m hs
    by_cases hz : allZero m
    · simp only [settleLoop, if_pos hz]
      intro h
      cases h
    · obtain ⟨hd, hc⟩ := exists_debtor_creditor m hs hz
      have hne := selectMin_ne_selectMax m hd hc
      have hstep := step_eq_some m hne
      have hs2 : round2 (sumBal (stepBal m)) = 0 := by
        rw [sumBal_stepBal m hne]
        exact hs
      rw [settleLoop_succ_of_step k m (stepPay m) (stepBal m) hz hstep]
      cases hrun : settleLoop k (stepBal m) with
      | ok ps3 m3 => intro h; cases h
      | assertFail => exact absurd hrun (ih _ hs2)
      | out => intro h; cases h

/-! ### Accumulation lemmas -/

lemma debitFold_apply (a : ℚ) :
    ∀ (l : List (WildMan × ℚ)) (m : Bal) (w : WildMan),
      (l.foldl (fun acc rp => updBal acc rp.1 (acc rp.1 - rp.2 * a)) m) w =
        m w - ((l.filter fun rp => decide (rp.1 = w)).map Prod.snd).sum * a := by
  intro l
  induction l with
  | nil =>
    intro m w
    simp
  | cons rp rest ih =>
    intro m w
    simp only [List.foldl_cons]
    rw [ih]
    by_cases h : rp.1 = w
    · rw [List.filter_cons_of_pos (by simpa using h)]
      simp only [List.map_cons, List.sum_cons]
      rw [← h, updBal_same]
      ring
    · rw [List.filter_cons_of_neg (by simpa using h),
        updBal_other _ _ _ _ (Ne.symm h)]

lemma applyTx_apply (m : Bal) (t : Transaction) (w : WildMan) :
    applyTx m t w = m w + (if t.creditor = w then t.amt.amount else 0)
      - sharesAt t w * t.amt.amount := by
  unfold applyTx sharesAt
  rw [debitFold_apply]
  by_cases h : t.creditor = w
  · rw [if_pos h, ← h, updBal_same]
  · rw [if_neg h, updBal_other _ _ _ _ (Ne.symm h)]
    ring

lemma debitFold_sum (a : ℚ) :
    ∀ (l : List (WildMan × ℚ)) (m : Bal),
      sumBal (l.foldl (fun acc rp => updBal acc rp.1 (acc rp.1 - rp.2 * a)) m) =
        sumBal m - (l.map Prod.snd).sum * a := by
  intro l
  induction l with
  | nil =>
    intro m
    simp
  | cons rp rest ih =>
    intro m
    simp only [List.foldl_cons, List.map_cons, List.sum_cons]
    rw [ih, sumBal_updBal]
    ring

lemma sumBal_applyTx (m : Bal) (t : Transaction) :
    sumBal (applyTx m t) = sumBal m + t.amt.amount
      - ((t.recipients.zip t.split).map Prod.snd).sum * t.amt.amount := by
  unfold applyTx
  rw [debitFold_sum, sumBal_updBal]
  ring

lemma zip_snd_sum (t : Transaction) (h : t.split.length = t.recipients.length) :
    ((t.recipients.zip t.split).map Prod.snd).sum = t.split.sum := by
  rw [List.map_snd_zip t.recipients t.split (le_of_eq h)]

lemma sumBal_accumulate_aux :
    ∀ (ts : List Transaction) (m : Bal),
      (∀ t ∈ ts, t.split.length = t.recipients.length ∧ t.split.sum = 1) →
      sumBal (ts.foldl applyTx m) = sumBal m := by
  intro ts
  induction ts with
  | nil =>
    intro m _
    rfl
  | cons t rest ih =>
    intro m h
    simp only [List.foldl_cons]
    rw [ih (applyTx m t) fun u hu => h u (List.mem_cons_of_mem t hu)]
    obtain ⟨h1, h2⟩ := h t (List.mem_cons_self t rest)
    rw [sumBal_applyTx, zip_snd_sum t h1, h2]
    ring

lemma mem_of_index {α : Type} (a : α) :
    ∀ (l : List α) (i : ℕ), l[i]? = some a → a ∈ l := by
  intro l
  induction l with
  | nil =>
    intro i h
    simp at h
  | cons x xs ih =>
    intro i h
    cases i with
    | zero =>
      simp only [List.getElem?_cons_zero, Option.some.injEq] at h
      subst h
      exact List.mem_cons_self x xs
    | succ i =>
      simp only [List.getElem?_cons_succ] at h
      exact List.mem_cons_of_mem x (ih i h)

lemma filter_zip_of_not_mem (w : WildMan) :
    ∀ (l1 : List WildMan) (l2 : List ℚ), w ∉ l1 →
      (l1.zip l2).filter (fun rp => decide (rp.1 = w)) = [] := by
  intro l1
  induction l1 with
  | nil =>
    intro l2 _
    simp
  | cons a l1 ih =>
    intro l2 h
    cases l2 with
    | nil => simp
    | cons b l2 =>
      have ha : a ≠ w := fun hh => h (hh ▸ List.mem_cons_self a l1)
      simp only [List.zip_cons_cons]
      rw [List.filter_cons_of_neg (by simpa using ha)]
      exact ih l2 fun hh => h (List.mem_cons_of_mem a hh)

lemma filter_zip_of_index (w : WildMan) :
    ∀ (l1 : List WildMan) (l2 : List ℚ) (i : ℕ) (s : ℚ), l1.Nodup →
      l1[i]? = some w → l2[i]? = some s →
      (((l1.zip l2).filter fun rp => decide (rp.1 = w)).map Prod.snd).sum = s := by
  intro l1
  induction l1 with
  | nil =>
    intro l2 i s _ h1 _
    simp at h1
  | cons a l1 ih =>
    intro l2 i s hnd h1 h2
    cases l2 with
    | nil => simp at h2
    | cons b l2 =>
      cases i with
      | zero =>
        simp only [List.getElem?_cons_zero, Option.some.injEq] at h1 h2
        subst h1
        subst h2
        have hnotmem : a ∉ l1 := (List.nodup_cons.mp hnd).1
        simp only [List.zip_cons_cons]
        rw [List.filter_cons_of_pos (by simp)]
        rw [List.map_cons, List.sum_cons, filter_zip_of_not_mem a l1 l2 hnotmem]
        simp
      | succ i =>
        simp only [List.getElem?_cons_succ] at h1 h2
        have hw : w ∈ l1 := mem_of_index w l1 i h1
        have ha : a ≠ w := fun hh => (List.nodup_cons.mp hnd).1 (hh ▸ hw)
        simp only [List.zip_cons_cons]
        rw [List.filter_cons_of_neg (by simpa using ha)]
        exact ih l2 i s (List.nodup_cons.mp hnd).2 h1 h2

lemma sharesAt_of_index (t : Transaction) (w : WildMan) (i : ℕ) (s : ℚ)
    (hnd : t.recipients.Nodup) (h1 : t.recipients[i]? = some w)
    (h2 : t.split[i]? = some s) : sharesAt t w = s :=
  filter_zip_of_index w t.recipients t.split i s hnd h1 h2

/-! ### Claim theorems -/

/-- C1, as amended: for every balance map handed to the Settlement Engine by
the accumulation step over a transaction list whose per-transaction share
lists are aligned 1:1 with the beneficiaries and sum to 1, the settlement
loop finishes (within the participant-count fuel bound) with every
participant's balance rounding to zero at 2 decimal places, and the emitted
payments are returned in emission order: the payment of an iteration is
consed in front of the payments of the later iterations. -/
theorem settlement_zeroes_accumulated_balances (ts : List Transaction)
    (h : ∀ t ∈ ts, t.split.length = t.recipients.length ∧ t.split.sum = 1) :
    (∃ ps m2, settleLoop 6 (accumulate ts) = .ok ps m2 ∧
      ∀ w : WildMan, round2 (m2 w) = 0) ∧
    (∀ (k : ℕ) (m m2 m3 : Bal) (pay : Transaction) (ps : List Transaction),
      ¬ allZero m → step m = some (pay, m2) →
      settleLoop k m2 = .ok ps m3 →
      settleLoop (k + 1) m = .ok (pay :: ps) m3) := by
  constructor
  · have hsum : sumBal (accumulate ts) = 0 := by
      unfold accumulate
      rw [sumBal_accumulate_aux ts zeroBal h, sumBal_zeroBal]
    obtain ⟨ps, m2, hrun, hz2, -, -⟩ :=
      settleLoop_total 6 (accumulate ts) (by rw [hsum]; exact round2_zero)
        (by have := nzCount_le_six (accumulate ts); omega)
    exact ⟨ps, m2, hrun, hz2⟩
  · intro k m m2 m3 pay ps hz hstep hrun
    rw [settleLoop_succ_of_step k m pay m2 hz hstep, hrun]

/-- C1 witness: a concrete well-formed transaction list on which the
settlement loop finishes with all balances rounding to zero. -/
theorem settlement_zeroes_accumulated_balances_witness :
    (∀ t ∈ exTxsSettle, t.split.length = t.recipients.length ∧ t.split.sum = 1) ∧
    (∃ ps m2, settleLoop 6 (accumulate exTxsSettle) = .ok ps m2 ∧
      ∀ w : WildMan, round2 (m2 w) = 0) :=
  ⟨by decide, (settlement_zeroes_accumulated_balances exTxsSettle (by decide)).1⟩

/-- C1 counterexample: accumulating a transaction list whose shares do not sum
to 1 (every member pays 2 for himself alone with share 1/2) leaves all six
balances at +1; the settlement loop then selects the same member as biggest
debtor and biggest creditor and dies on the defensive assert instead of
finishing with zeroed balances. -/
theorem settlement_zeroes_accumulated_balances_counterexample :
    (∀ w : WildMan, accumulate assertTxs w = 1) ∧
    ¬ allZero (accumulate assertTxs) ∧
    settleLoop 6 (accumulate assertTxs) = .assertFail :=
  ⟨by decide, by decide, by rfl⟩

/-- C2: for a balance map whose entries sum to zero within rounding tolerance,
each settlement iteration zeroes at least one participant's balance —
whichever of the selected debtor/creditor had the smaller magnitude — so the
settlement loop terminates and emits at most `participant_count - 1 = 5`
payments. -/
theorem settlement_progress_and_bound (m : Bal)
    (hs : round2 (sumBal m) = 0) :
    (¬ allZero m →
      ∃ pay, step m = some (pay, stepBal m) ∧
        (stepBal m (selectMin m) = 0 ∨ stepBal m (selectMax m) = 0) ∧
        (|m (selectMin m)| ≤ m (selectMax m) → stepBal m (selectMin m) = 0) ∧
        (m (selectMax m) ≤ |m (selectMin m)| → stepBal m (selectMax m) = 0)) ∧
    (∃ ps m2, settleLoop 6 m = .ok ps m2 ∧ ps.length ≤ 5) := by
  constructor
  · intro hz
    obtain ⟨hd, hc⟩ := exists_debtor_creditor m hs hz
    have hne := selectMin_ne_selectMax m hd hc
    exact ⟨stepPay m, step_eq_some m hne, stepBal_zeroes m hd hc,
      fun hle => stepBal_zeroes_debtor m hd hc hle,
      fun hle => stepBal_zeroes_creditor m hle⟩
  · obtain ⟨ps, m2, hrun, -, hlen, -⟩ :=
      settleLoop_total 6 m hs (by have := nzCount_le_six m; omega)
    exact ⟨ps, m2, hrun, by have := nzCount_le_six m; omega⟩

/-- C2 witness: concrete tolerably balanced ledger on which the loop emits at
most five payments. -/
theorem settlement_progress_and_bound_witness :
    round2 (sumBal exBalBound) = 0 ∧
    (∃ ps m2, settleLoop 6 exBalBound = .ok ps m2 ∧ ps.length ≤ 5) :=
  ⟨by rfl, (settlement_progress_and_bound exBalBound (by rfl)).2⟩

/-- C3: the accumulation step credits the payer with the full amount and
debits every `(beneficiary, share)` pair by `share * amount`; a payer who is
also a beneficiary with share `s` therefore nets `(1 - s) * amount` from the
transaction. -/
theorem accumulation_credit_debit (m : Bal) (t : Transaction) (w : WildMan) :
    applyTx m t w = m w + (if t.creditor = w then t.amt.amount else 0)
      - sharesAt t w * t.amt.amount ∧
    (∀ (i : ℕ) (s : ℚ), t.creditor = w → t.recipients.Nodup →
      t.recipients[i]? = some w → t.split[i]? = some s →
      applyTx m t w = m w + (1 - s) * t.amt.amount) := by
  refine ⟨applyTx_apply m t w, fun i s hcw hnd h1 h2 => ?_⟩
  rw [applyTx_apply m t w, if_pos hcw, sharesAt_of_index t w i s hnd h1 h2]
  ring

/-- C3 witness: the uneven-split scenario — 90 paid by Nishant with own share
1/2 nets Nishant `(1 - 1/2) * 90 = 45`. -/
theorem accumulation_credit_debit_witness :
    applyTx zeroBal unevenTx .Nishant =
      zeroBal .Nishant + (1 - 1 / 2) * unevenTx.amt.amount :=
  (accumulation_credit_debit zeroBal unevenTx .Nishant).2 0 (1 / 2)
    (by rfl) (by decide) (by rfl) (by rfl)

/-- C4: `obligation` returns the full amount for the payer (this branch
short-circuits, even when the payer is also a beneficiary), minus the share
at the beneficiary's index times the amount for a non-payer beneficiary, and
zero for an uninvolved member. -/
theorem obligation_cases (t : Transaction) (w : WildMan) :
    (t.creditor = w → obligation t w = some t.amt) ∧
    (∀ (i : ℕ) (s : ℚ), t.creditor ≠ w → t.recipients.indexOf w = i →
      t.split[i]? = some s → w ∈ t.recipients →
      obligation t w = some ⟨-(s * t.amt.amount), t.amt.currency⟩) ∧
    (t.creditor ≠ w → w ∉ t.recipients → obligation t w = some ⟨0, "USD"⟩) := by
  refine ⟨fun h => ?_, fun i s hne hidx hs hmem => ?_, fun hne hmem => ?_⟩
  · unfold obligation
    rw [if_pos h]
  · unfold obligation
    rw [if_neg hne, if_pos hmem, hidx, hs]
    rfl
  · unfold obligation
    rw [if_neg hne, if_neg hmem]

/-- C4 witness: Steve, beneficiary at index 1 of a 100-USD transaction with
share 1/2, owes half the amount in the transaction's currency. -/
theorem obligation_cases_witness :
    obligation benefTx .Steve =
      some ⟨-(1 / 2 * benefTx.amt.amount), benefTx.amt.currency⟩ :=
  (obligation_cases benefTx .Steve).2.1 1 (1 / 2)
    (by decide) (by rfl) (by rfl) (by decide)

/-- C5, as amended: for a transaction set each of whose transactions' share
lists are aligned 1:1 with the beneficiaries and sum to 1, the accumulated
balances sum to exactly zero — hence the sum rounds to zero — and the
zero-sum is preserved as each single transaction is accumulated. -/
theorem conservation (ts : List Transaction)
    (h : ∀ t ∈ ts, t.split.length = t.recipients.length ∧ t.split.sum = 1) :
    sumBal (accumulate ts) = 0 ∧ round2 (sumBal (accumulate ts)) = 0 ∧
    (∀ (m : Bal) (t : Transaction), t.split.length = t.recipients.length →
      t.split.sum = 1 → sumBal (applyTx m t) = sumBal m) := by
  have hsum : sumBal (accumulate ts) = 0 := by
    unfold accumulate
    rw [sumBal_accumulate_aux ts zeroBal h, sumBal_zeroBal]
  refine ⟨hsum, by rw [hsum]; exact round2_zero, fun m t h1 h2 => ?_⟩
  rw [sumBal_applyTx, zip_snd_sum t h1, h2]
  ring

/-- C5 witness: a concrete well-formed transaction list whose accumulated
balances sum to zero. -/
theorem conservation_witness :
    (∀ t ∈ exTxsConserve, t.split.length = t.recipients.length ∧ t.split.sum = 1) ∧
    sumBal (accumulate exTxsConserve) = 0 :=
  ⟨by decide, (conservation exTxsConserve (by decide)).1⟩

/-- C5 counterexample: a single transaction whose only share is 2 breaks
conservation — the accumulated balances sum to -10, which does not round to
zero. -/
theorem conservation_counterexample :
    sumBal (accumulate [badShareTx]) = -10 ∧
    round2 (sumBal (accumulate [badShareTx])) ≠ 0 :=
  ⟨by rfl, by decide⟩

/-- C6: when the balance map entering the settlement loop sums to zero within
rounding tolerance, the defensive assert that the selected biggest debtor and
biggest creditor are distinct never fails, however many iterations the loop
is unrolled. -/
theorem settlement_assert_unreachable (fuel : ℕ) (m : Bal)
    (hs : round2 (sumBal m) = 0) : settleLoop fuel m ≠ .assertFail :=
  settleLoop_no_assert_aux fuel m hs

/-- C6 witness: a concrete balanced ledger on which the loop never hits the
assert. -/
theorem settlement_assert_unreachable_witness :
    round2 (sumBal exBalAssert) = 0 ∧ settleLoop 3 exBalAssert ≠ .assertFail :=
  ⟨by rfl, settlement_assert_unreachable 3 exBalAssert (by rfl)⟩

/-- C7: with pre-settlement balances Nishant(A) = +30, Steve(B) = -10,
Joe(C) = -20 and all other members at zero, the Settlement Engine emits
exactly two payments — first 20 with payer Nishant and beneficiaries [Joe],
then 10 with payer Nishant and beneficiaries [Steve], each with shares `[1]`
and an empty description — and every final balance is zero. -/
theorem settlement_end_to_end :
    ∃ m2, settleLoop 6 endToEndBal =
      .ok [⟨⟨20, "USD"⟩, .Nishant, [.Joe], [1], ""⟩,
           ⟨⟨10, "USD"⟩, .Nishant, [.Steve], [1], ""⟩]
        m2 ∧ ∀ w : WildMan, m2 w = 0 :=
  ⟨_, rfl, by decide⟩

/-- C8: the 100-USD transaction with defaulted beneficiaries and shares
targets the whole 6-member registry with share 1/6 each; each of the five
non-payer members owes 100/6, which rounds to exactly 16.67 at 2 decimals,
and five rounded shares total 83.35, within a cent of 83.35. -/
theorem even_split_default :
    evenSplitTx.recipients = registry ∧
    evenSplitTx.split = List.replicate 6 (1 / 6) ∧
    obligation evenSplitTx .Steve = some ⟨-(100 / 6), "USD"⟩ ∧
    obligation evenSplitTx .Joe = some ⟨-(100 / 6), "USD"⟩ ∧
    obligation evenSplitTx .Elton = some ⟨-(100 / 6), "USD"⟩ ∧
    obligation evenSplitTx .John = some ⟨-(100 / 6), "USD"⟩ ∧
    obligation evenSplitTx .Dim = some ⟨-(100 / 6), "USD"⟩ ∧
    round2 (100 / 6) = 1667 / 100 ∧
    |5 * (1667 / 100) - 8335 / 100| ≤ (1 : ℚ) / 100 :=
  ⟨by rfl, by rfl, by rfl, by rfl, by rfl, by rfl, by rfl, by rfl, by decide⟩

/-- C9: each settlement iteration adds the amount to the debtor's balance and
subtracts it from the creditor's balance, so the total balance is invariant
across one step and across any completed run of the loop. -/
theorem settlement_preserves_sum :
    (∀ (m : Bal) (pay : Transaction) (m2 : Bal),
      step m = some (pay, m2) → sumBal m2 = sumBal m) ∧
    (∀ (fuel : ℕ) (m : Bal) (ps : List Transaction) (m2 : Bal),
      settleLoop fuel m = .ok ps m2 → sumBal m2 = sumBal m) :=
  ⟨step_sum, settleLoop_sum_aux⟩

/-- C9 witness: one concrete settlement step preserves the total balance. -/
theorem settlement_preserves_sum_witness :
    step exBalSum = some (stepPay exBalSum, stepBal exBalSum) ∧
    sumBal (stepBal exBalSum) = sumBal exBalSum :=
  ⟨by rfl, settlement_preserves_sum.1 exBalSum (stepPay exBalSum)
    (stepBal exBalSum) (by rfl)⟩

/-- C10: for a member who is neither payer nor beneficiary, `obligation`
returns a zero denominated in USD whatever the transaction's currency, while
the payer and beneficiary branches return values denominated in the
transaction's own currency. -/
theorem obligation_currency (t : Transaction) (w : WildMan) :
    (t.creditor ≠ w → w ∉ t.recipients → obligation t w = some ⟨0, "USD"⟩) ∧
    (∀ mo : Money, obligation t w = some mo →
      t.creditor = w ∨ w ∈ t.recipients → mo.currency = t.amt.currency) := by
  constructor
  · intro hne hmem
    unfold obligation
    rw [if_neg hne, if_neg hmem]
  · intro mo hob hcase
    unfold obligation at hob
    by_cases h1 : t.creditor = w
    · rw [if_pos h1] at hob
      cases hob
      rfl
    · rcases hcase with hc | hmem
      · exact absurd hc h1
      · rw [if_neg h1, if_pos hmem] at hob
        cases hidx : t.split[t.recipients.indexOf w]? with
        | none =>
          rw [hidx] at hob
          cases hob
        | some s =>
          rw [hidx] at hob
          simp only [Option.map_some', Option.some.injEq] at hob
          rw [← hob]

/-- C10 witness: Joe is uninvolved in a EUR transaction and still receives a
USD-denominated zero. -/
theorem obligation_currency_witness :
    obligation eurTx .Joe = some ⟨0, "USD"⟩ :=
  (obligation_currency eurTx .Joe).1 (by decide) (by decide)

end WMW
